import Mathlib

/-
  Verification of the miniCassandra distributed key-value store.

  Shallow embedding of the core data plane:
    - src/ConsistentHashing.js : class ConsistentHashing (ring, addNode, removeNode,
      getNode, getReplicaNodes)
    - src/Node.js  : class Node (storeData, getData, handleReplication,
      handleWriteRequest, replicateToPeers, checkForFailedNodes, handleNodeFailure)
    - src/Cluster.js : class Cluster (put, get, quorum)

  Modelling conventions:
    - JavaScript `Map` objects are association lists in insertion order.
      `Map.set` replaces the value of an existing key in place (keeping its
      position) and appends a fresh key at the end; `Map.delete` removes the
      entry.  This order-faithful model lets structure equality stand in for
      the byte-identity of a serialized ring.
    - The SHA-256 based position function (hash + hashToPosition, taking the
      first 32 bits of the digest) is abstracted as a parameter
      `hashFn : String → Nat`; every theorem is proved for an arbitrary such
      function, exactly as the ring algorithms are agnostic to it.
    - `Date.now()` is modelled by threading explicit clock readings (`now`
      arguments), one per textual call to Date.now() in the source.
    - JS values stored by clients are opaque to the core; we model them as
      either `undefined` (a real, distinguished JS value that a Map can hold)
      or an opaque defined blob.
-/

/-! ## JavaScript Map model -/

/-- JS value as seen by the store: `undefined` or an opaque defined value. -/
inductive JSValue where
  | undef : JSValue
  | blob : String → JSValue
  deriving DecidableEq, Repr

/-- Lookup in an insertion-ordered JS Map (association list). -/
def mapGet? {α β : Type} [DecidableEq α] : List (α × β) → α → Option β
  | [], _ => none
  | (k', v) :: rest, k => if k' = k then some v else mapGet? rest k

/-- JS `Map.set`: replace in place if the key exists, else append. -/
def mapSet {α β : Type} [DecidableEq α] : List (α × β) → α → β → List (α × β)
  | [], k, v => [(k, v)]
  | (k', v') :: rest, k, v =>
    if k' = k then (k, v) :: rest else (k', v') :: mapSet rest k v

/-- JS `Map.delete`: remove the entry for the key. -/
def mapDelete {α β : Type} [DecidableEq α] (m : List (α × β)) (k : α) : List (α × β) :=
  m.filter (fun e => e.1 ≠ k)

/-! ## Metadata and records (Node.js storeData) -/

/-- Version/timestamp metadata attached to every stored record. -/
structure Metadata where
  version : Nat
  timestamp : Nat
  nodeId : String
  deriving DecidableEq, Repr

/-! ## ConsistentHashing (src/ConsistentHashing.js) -/

/-- State of the ConsistentHashing class: the ring map (position to node id,
insertion-ordered), the sorted position array, and the node table. -/
structure ConsistentHashing where
  replicationFactor : Nat
  virtualNodes : Nat
  ring : List (Nat × String)
  sortedHashes : List Nat
  nodes : List (String × JSValue)
  deriving DecidableEq, Repr

/-- Fresh ring as built by the constructor. -/
def ConsistentHashing.mk0 (replicationFactor virtualNodes : Nat) : ConsistentHashing :=
  ⟨replicationFactor, virtualNodes, [], [], []⟩

/-- Virtual node key: the template string nodeId:i hashed for each virtual node. -/
def virtualKey (nodeId : String) (i : Nat) : String := s!"{nodeId}:{i}"

/-- sortedHashes rebuild: Array.from(ring.keys()).sort ascending. -/
def sortKeys (ring : List (Nat × String)) : List Nat :=
  (ring.map Prod.fst).insertionSort (· ≤ ·)

/-- addNode: insert the node into the node table, set all V virtual positions
in the ring map (Map.set, so a colliding position is overwritten), and rebuild
the sorted position list. -/
def addNode (hashFn : String → Nat) (ch : ConsistentHashing)
    (nodeId : String) (nodeInfo : JSValue) : ConsistentHashing :=
  let nodes' := mapSet ch.nodes nodeId nodeInfo
  let ring' := (List.range ch.virtualNodes).foldl
    (fun r i => mapSet r (hashFn (virtualKey nodeId i)) nodeId) ch.ring
  { ch with nodes := nodes', ring := ring', sortedHashes := sortKeys ring' }

/-- removeNode: if the node is unknown return the state unchanged (the source
returns false); otherwise delete each of its V virtual positions from the ring
map, drop it from the node table, and rebuild the sorted list. -/
def removeNode (hashFn : String → Nat) (ch : ConsistentHashing)
    (nodeId : String) : ConsistentHashing :=
  if (mapGet? ch.nodes nodeId).isNone then ch
  else
    let ring' := (List.range ch.virtualNodes).foldl
      (fun r i => mapDelete r (hashFn (virtualKey nodeId i))) ch.ring
    { ch with nodes := mapDelete ch.nodes nodeId, ring := ring',
              sortedHashes := sortKeys ring' }

/-- The for-loop of getNode: first position in the sorted list that is ≥ the
key's position (the loop breaks at the first hit). -/
def scanFirstGE (position : Nat) : List Nat → Option Nat
  | [] => none
  | p :: rest => if position ≤ p then some p else scanFirstGE position rest

/-- getNode: primary node for a key; wraps to the first sorted position when
no position is ≥ the key's position. -/
def getNode (hashFn : String → Nat) (ch : ConsistentHashing) (key : String) :
    Option String :=
  match ch.sortedHashes with
  | [] => none
  | first :: _ =>
    match scanFirstGE (hashFn key) ch.sortedHashes with
    | some hashPos => mapGet? ch.ring hashPos
    | none => mapGet? ch.ring first

/-- The startIndex scan of getReplicaNodes: index of the first sorted position
≥ the key's position (startIndex stays 0 when none qualifies). -/
def scanStartIndex (position : Nat) : List Nat → Nat → Option Nat
  | [], _ => none
  | p :: rest, i => if position ≤ p then some i else scanStartIndex position rest (i + 1)

/-- Node id stored at a ring position (JS would yield undefined on a miss;
the loop only reads positions present in the ring). -/
def nodeAt (ring : List (Nat × String)) (p : Nat) : String :=
  (mapGet? ring p).getD ""

/-- The while-loop of getReplicaNodes: walk the sorted positions clockwise
(index mod length) collecting distinct node ids until min(R, N) are gathered.
The JS loop is unbounded; `fuel` bounds the recursion, and one full cycle plus
one extra check is always enough on coherent ring states (proved below). -/
def replicaLoop (ring : List (Nat × String)) (sorted : List Nat) (rf n : Nat) :
    Nat → Nat → List String → List String
  | 0, _, acc => acc
  | fuel + 1, idx, acc =>
    if acc.length < rf ∧ acc.length < n then
      let nodeId := nodeAt ring (sorted.getD idx 0)
      let acc2 := if nodeId ∈ acc then acc else acc ++ [nodeId]
      replicaLoop ring sorted rf n fuel ((idx + 1) % sorted.length) acc2
    else acc

/-- getReplicaNodes: ordered replica list for a key (primary first). -/
def getReplicaNodes (hashFn : String → Nat) (ch : ConsistentHashing)
    (key : String) : List String :=
  match ch.sortedHashes with
  | [] => []
  | _ :: _ =>
    let startIndex := (scanStartIndex (hashFn key) ch.sortedHashes 0).getD 0
    replicaLoop ch.ring ch.sortedHashes ch.replicationFactor ch.nodes.length
      (ch.sortedHashes.length + 1) startIndex []

/-! ## Node state (src/Node.js) -/

/-- Mutable state of one Node that the claims touch: the data and metadata
maps, the connected-peer set, and the per-peer heartbeat map.  Peer entries in
the source carry a live socket; only their presence matters to the logic. -/
structure NodeState where
  nodeId : String
  data : List (String × JSValue)
  metadata : List (String × Metadata)
  peers : List String
  lastHeartbeat : List (String × Nat)
  deriving DecidableEq, Repr

/-- Fresh node as built by the constructor. -/
def NodeState.mk0 (nodeId : String) : NodeState := ⟨nodeId, [], [], [], []⟩

/-- storeData: store the value and build fresh metadata from the LOCAL clock
(Date.now() at store time) and the LOCAL node id; the caller's metadata
timestamp is not stored. -/
def storeData (s : NodeState) (now : Nat) (key : String) (value : JSValue)
    (version : Nat) : NodeState :=
  { s with data := mapSet s.data key value,
           metadata := mapSet s.metadata key ⟨version, now, s.nodeId⟩ }

/-- getData: return {value, metadata} when the looked-up value is not
undefined, else null.  A key stored with value undefined is indistinguishable
from an absent key here.  storeData is the only writer of both maps, so a
defined value always has a metadata entry; the getD default is unreachable in
states the code produces. -/
def getData (s : NodeState) (key : String) : Option (JSValue × Metadata) :=
  let value := (mapGet? s.data key).getD JSValue.undef
  if value = JSValue.undef then none
  else some (value, (mapGet? s.metadata key).getD ⟨0, 0, ""⟩)

/-- handleReplication (replicate_data path): store only when no metadata
exists or the incoming metadata timestamp is strictly greater than the stored
one; note storeData then re-stamps with the local clock. -/
def handleReplication (s : NodeState) (now : Nat) (key : String)
    (value : JSValue) (metadata : Metadata) : NodeState :=
  match mapGet? s.metadata key with
  | none => storeData s now key value metadata.version
  | some existingMetadata =>
    if metadata.timestamp > existingMetadata.timestamp then
      storeData s now key value metadata.version
    else s

/-- Reply sent back by handleWriteRequest. -/
structure WriteReply where
  success : Bool
  nodeId : String
  deriving DecidableEq, Repr

/-- handleWriteRequest (write_request path): unconditional store, no
timestamp comparison, reply {success: true, nodeId}. -/
def handleWriteRequest (s : NodeState) (now : Nat) (key : String)
    (value : JSValue) (metadata : Metadata) : NodeState × WriteReply :=
  (storeData s now key value metadata.version, ⟨true, s.nodeId⟩)

/-- Per-target outcome of the PUT fan-out. -/
structure WriteResult where
  nodeId : String
  success : Bool
  error : Option String
  deriving DecidableEq, Repr

/-- replicateToPeers: for each target, skip self; skip a target with no peer
entry (it produces no promise and hence NO per-target result); a connected
target always resolves as a timeout, because the replicate_data handler in
setupSocketIO receives the acknowledgment callback but never invokes it, so
the emitting side's success resolution never runs and its 3 s timer fires. -/
def replicateToPeers (s : NodeState) (_key : String) (_value : JSValue)
    (_metadata : Metadata) (targetNodes : List String) : List WriteResult :=
  targetNodes.filterMap (fun nodeId =>
    if nodeId = s.nodeId then none
    else if nodeId ∈ s.peers then
      some ⟨nodeId, false, some "timeout"⟩
    else none)

/-- handleNodeFailure: delete the failed peer from the peer table and the
heartbeat map, then gossip (broadcastNodeFailure sends messages only; no local
state change).  Nothing here, or anywhere else in the source, touches the
consistent-hashing ring. -/
def handleNodeFailure (s : NodeState) (failedNodeId : String) : NodeState :=
  { s with peers := s.peers.filter (fun p => p ≠ failedNodeId),
           lastHeartbeat := mapDelete s.lastHeartbeat failedNodeId }

/-- checkForFailedNodes: declare failed every peer whose last heartbeat is
older than the 10000 ms threshold. -/
def checkForFailedNodes (s : NodeState) (now : Nat) : NodeState :=
  s.lastHeartbeat.foldl
    (fun st e => if now - e.2 > 10000 then handleNodeFailure st e.1 else st) s

/-! ## Cluster (src/Cluster.js) -/

/-- Cluster state: the ring, the local node, and the quorum computed once in
the constructor as floor(replicationFactor / 2) + 1. -/
structure ClusterState where
  replicationFactor : Nat
  quorumSize : Nat
  ch : ConsistentHashing
  localNode : NodeState
  deriving DecidableEq, Repr

/-- Result object returned by Cluster.put. -/
structure PutResult where
  success : Bool
  key : String
  replicaNodes : List String
  successfulWrites : Nat
  quorumSize : Nat
  quorumAchieved : Bool
  writeResults : List WriteResult
  deriving DecidableEq, Repr

/-- Cluster.put.  `now1` is the Date.now() that builds the PUT metadata;
`now2` is the Date.now() inside the local storeData call (two separate clock
reads in the source).  The HTTP adapter passes value undefined when the
request body has no value field. -/
def clusterPut (hashFn : String → Nat) (cs : ClusterState) (now1 now2 : Nat)
    (key : String) (value : JSValue) : PutResult × ClusterState :=
  let version := 1
  let metadata : Metadata := ⟨version, now1, cs.localNode.nodeId⟩
  let replicaNodes := getReplicaNodes hashFn cs.ch key
  let localIsReplica := cs.localNode.nodeId ∈ replicaNodes
  let localNode' :=
    if localIsReplica then storeData cs.localNode now2 key value version
    else cs.localNode
  let localResults : List WriteResult :=
    if localIsReplica then [⟨cs.localNode.nodeId, true, none⟩] else []
  let writeResults :=
    localResults ++ replicateToPeers cs.localNode key value metadata replicaNodes
  let successfulWrites := (writeResults.filter (fun r => r.success)).length
  let quorumAchieved := decide (successfulWrites ≥ cs.quorumSize)
  (⟨quorumAchieved, key, replicaNodes, successfulWrites, cs.quorumSize,
    quorumAchieved, writeResults⟩,
   { cs with localNode := localNode' })

/-- One collected read result inside Cluster.get. -/
structure ReadResult where
  nodeId : String
  value : JSValue
  metadata : Metadata
  deriving DecidableEq, Repr

/-- The reducer of Cluster.get: keep the current record only on a strictly
greater timestamp (JS reduce without an initial value starts at the first
element, so the earlier element survives a tie). -/
def lwwStep (latest current : ReadResult) : ReadResult :=
  if current.metadata.timestamp > latest.metadata.timestamp then current else latest

/-- Conflict resolution of Cluster.get over the collected results. -/
def selectLatest : List ReadResult → Option ReadResult
  | [] => none
  | r :: rs => some (rs.foldl lwwStep r)

/-- Result object returned by Cluster.get. -/
structure GetResult where
  value : JSValue
  metadata : Metadata
  readResults : Nat
  quorumAchieved : Bool
  deriving DecidableEq, Repr

/-- Cluster.get.  `peerRead nid` is the response collected from peer nid
(its getData result when the read succeeded; none covers not_connected,
timeout, not_found — all filtered out by the source before the reduce). -/
def clusterGet (hashFn : String → Nat) (cs : ClusterState)
    (peerRead : String → Option (JSValue × Metadata)) (key : String) :
    Option GetResult :=
  let replicaNodes := getReplicaNodes hashFn cs.ch key
  let localResults : List ReadResult :=
    if cs.localNode.nodeId ∈ replicaNodes then
      match getData cs.localNode key with
      | some vm => [⟨cs.localNode.nodeId, vm.1, vm.2⟩]
      | none => []
    else []
  let peerResults : List ReadResult :=
    (replicaNodes.filter (fun nid => nid ≠ cs.localNode.nodeId)).filterMap
      (fun nid => (peerRead nid).map (fun vm => ⟨nid, vm.1, vm.2⟩))
  let readResults := localResults ++ peerResults
  match selectLatest readResults with
  | none => none
  | some latest =>
    some ⟨latest.value, latest.metadata, readResults.length,
          decide (readResults.length ≥ cs.quorumSize)⟩

/-- The failure-detection tick as it acts on a cluster: the timer lives in
Node and can reach only the node state; the Cluster object never registers
any callback that would touch the ring. -/
def clusterCheckFailures (cs : ClusterState) (now : Nat) : ClusterState :=
  { cs with localNode := checkForFailedNodes cs.localNode now }

/-! ## Spec-side definitions and coherence predicate -/

/-- Quorum as computed once in the Cluster constructor. -/
def quorumOf (replicationFactor : Nat) : Nat := replicationFactor / 2 + 1

/-- Insert a node id if not yet collected (the Set.add of the replica walk,
keeping first-seen order as JS Sets do). -/
def insDistinct (acc : List String) (x : String) : List String :=
  if x ∈ acc then acc else acc ++ [x]

/-- Distinct elements of a list in first-occurrence order. -/
def firstDedup (l : List String) : List String := l.foldl insDistinct []

/-- Modelled from the spec wording of section 4.2: the clockwise visitation
order of ring positions starting at a given index, wrapping around. -/
def clockwiseFrom (sorted : List Nat) (startIndex : Nat) : List Nat :=
  sorted.drop startIndex ++ sorted.take startIndex

/-- Modelled from the spec wording of section 4.2: starting from the primary,
walk positions clockwise, collect distinct node ids until min(R, N) have been
gathered, in visitation order.  Used only to compare against the embedded
getReplicaNodes. -/
def replicasSpec (hashFn : String → Nat) (ch : ConsistentHashing)
    (key : String) : List String :=
  match ch.sortedHashes with
  | [] => []
  | _ :: _ =>
    let startIndex := (scanStartIndex (hashFn key) ch.sortedHashes 0).getD 0
    (firstDedup ((clockwiseFrom ch.sortedHashes startIndex).map
      (nodeAt ch.ring))).take (min ch.replicationFactor ch.nodes.length)

/-- Coherence of a ring state: node ids are unique in the node table, every
sorted position is present in the ring map, and every node owns at least one
sorted position.  States reached by addNode/removeNode satisfy this whenever
no 32-bit hash collision between distinct virtual-node keys has occurred. -/
def RingCoherent (ch : ConsistentHashing) : Prop :=
  (ch.nodes.map Prod.fst).Nodup ∧
  (∀ p ∈ ch.sortedHashes, (mapGet? ch.ring p).isSome) ∧
  (∀ nid ∈ ch.nodes.map Prod.fst, ∃ p ∈ ch.sortedHashes, mapGet? ch.ring p = some nid)

instance (ch : ConsistentHashing) : Decidable (RingCoherent ch) := by
  unfold RingCoherent; infer_instance

/-- Structural rendering of the replica while-loop: walk an explicit list of
positions instead of a fuel-bounded index walk. -/
def walkPositions (ring : List (Nat × String)) (rf n : Nat) :
    List Nat → List String → List String
  | [], acc => acc
  | p :: rest, acc =>
    if acc.length < rf ∧ acc.length < n then
      walkPositions ring rf n rest (insDistinct acc (nodeAt ring p))
    else acc

/-- The cyclic position sequence visited by the replica loop: fuel entries
starting at idx, stepping by one modulo the length. -/
def cycPositions (sorted : List Nat) : Nat → Nat → List Nat
  | _, 0 => []
  | idx, fuel + 1 =>
    sorted.getD idx 0 :: cycPositions sorted ((idx + 1) % sorted.length) fuel

/-- Fold collecting distinct node ids along a position list. -/
def accFold (ring : List (Nat × String)) (acc : List String) (ps : List Nat) :
    List String :=
  ps.foldl (fun a p => insDistinct a (nodeAt ring p)) acc

/-- Running maximum of result timestamps. -/
def tsMaxFrom (t : Nat) (rs : List ReadResult) : Nat :=
  rs.foldl (fun m x => max m x.metadata.timestamp) t

/-! ## Demo fixtures (concrete states used by witnesses and counterexamples) -/

/-- A two-node demo position function: V = 1 virtual node per physical node. -/
def demoHash (s : String) : Nat :=
  if s = "node-a:0" then 10 else if s = "node-b:0" then 20
  else if s = "k" then 15 else 0

/-- Two-node demo ring (replication factor 3, one virtual node each). -/
def demoCH : ConsistentHashing :=
  addNode demoHash (addNode demoHash (.mk0 3 1) "node-a" (.blob "a"))
    "node-b" (.blob "b")

/-- Local node of the two-node demo: connected to node-b, whose last
heartbeat was at time 0. -/
def demoNode : NodeState := ⟨"node-a", [], [], ["node-b"], [("node-b", 0)]⟩

/-- Two-node demo cluster. -/
def demoCluster : ClusterState := ⟨3, quorumOf 3, demoCH, demoNode⟩

/-- Single-node demo position function. -/
def demoHash1 (s : String) : Nat := if s = "node-a:0" then 10 else 5

/-- Single-node cluster with replication factor 1 (quorum 1). -/
def demoCluster1 : ClusterState :=
  ⟨1, quorumOf 1, addNode demoHash1 (.mk0 1 1) "node-a" (.blob "info"),
   .mk0 "node-a"⟩

/-- A position function sending every virtual-node key to position 5, used to
exhibit the behaviour of the ring code at a hash collision (32-bit prefix
collisions of SHA-256 exist between distinct virtual-node keys; the ring code
is oblivious to which hash produced them). -/
def collideHash : String → Nat := fun _ => 5

/-- One-node ring whose single virtual position is 5. -/
def c7Ring : ConsistentHashing :=
  addNode collideHash (.mk0 3 1) "node-a" (.blob "a")

/-- Read result from node-b with timestamp 5. -/
def c5b : ReadResult := ⟨"node-b", .blob "vb", ⟨1, 5, "node-b"⟩⟩

/-- Read result from node-a with the same timestamp 5. -/
def c5a : ReadResult := ⟨"node-a", .blob "va", ⟨1, 5, "node-a"⟩⟩

/-- Node holding key k with stored timestamp 100, for the write-request demo. -/
def wNode : NodeState :=
  ⟨"node-x", [("k", .blob "v0")], [("k", ⟨1, 100, "node-x"⟩)], [], []⟩

/-- Three-node demo position function. -/
def demoHash3 (s : String) : Nat :=
  if s = "node-a:0" then 10 else if s = "node-b:0" then 20
  else if s = "node-c:0" then 30 else if s = "k" then 15 else 0

/-- Three-node demo ring. -/
def demoCH3 : ConsistentHashing :=
  addNode demoHash3 (addNode demoHash3 (addNode demoHash3 (.mk0 3 1)
    "node-a" (.blob "a")) "node-b" (.blob "b")) "node-c" (.blob "c")

/-- Three-node cluster whose coordinator node-a has a live link to node-b
only: node-c is in the ring but not connected. -/
def demoCluster3 : ClusterState :=
  ⟨3, quorumOf 3, demoCH3, ⟨"node-a", [], [], ["node-b"], []⟩⟩

/-! ## Map lemmas -/

theorem mapGet?_mapSet_self {α β : Type} [DecidableEq α]
    (m : List (α × β)) (k : α) (v : β) :
    mapGet? (mapSet m k v) k = some v := by
  induction m with
  | nil => simp [mapSet, mapGet?]
  | cons e rest ih =>
    obtain ⟨k', v'⟩ := e
    by_cases h : k' = k
    · subst h; simp [mapSet, mapGet?]
    · simp [mapSet, mapGet?, h, ih]

theorem mapGet?_mapSet_ne {α β : Type} [DecidableEq α]
    (m : List (α × β)) {k' k : α} (v : β) (h : k' ≠ k) :
    mapGet? (mapSet m k' v) k = mapGet? m k := by
  induction m with
  | nil => simp [mapSet, mapGet?, h]
  | cons e rest ih =>
    obtain ⟨a, b⟩ := e
    by_cases ha : a = k'
    · subst ha; simp [mapSet, mapGet?, h]
    · by_cases hk : a = k
      · subst hk; simp [mapSet, mapGet?, ha, Ne.symm h]
      · simp [mapSet, mapGet?, ha, hk, ih]

/-- Folding Map.set over a list of positions with a constant value: every
inserted position (and every position that already held the value) maps to
that value afterwards. -/
theorem foldIns_lookup {v : String} :
    ∀ (ps : List Nat) (m : List (Nat × String)) (p : Nat),
    (p ∈ ps ∨ mapGet? m p = some v) →
    mapGet? (ps.foldl (fun r q => mapSet r q v) m) p = some v := by
  intro ps
  induction ps with
  | nil =>
    intro m p h
    rcases h with hmem | hlook
    · cases hmem
    · simpa using hlook
  | cons q rest ih =>
    intro m p h
    simp only [List.foldl_cons]
    apply ih
    rcases h with hmem | hlook
    · rcases List.mem_cons.mp hmem with h' | hrest
      · right; rw [h']; exact mapGet?_mapSet_self m q v
      · left; exact hrest
    · by_cases hpq : q = p
      · subst hpq; right; exact mapGet?_mapSet_self m q v
      · right; rw [mapGet?_mapSet_ne m v hpq]; exact hlook

/-- The node-id projection of the fan-out results is exactly the list of
targets that are neither the coordinator nor unconnected. -/
theorem replicateToPeers_map_nodeId (s : NodeState) (k : String) (v : JSValue)
    (md : Metadata) (targets : List String) :
    (replicateToPeers s k v md targets).map (fun r => r.nodeId) =
      targets.filter (fun nid => decide (nid ≠ s.nodeId ∧ nid ∈ s.peers)) := by
  induction targets with
  | nil => rfl
  | cons t rest ih =>
    unfold replicateToPeers at ih ⊢
    simp only [List.filterMap_cons, List.filter_cons]
    by_cases h1 : t = s.nodeId
    · simp [h1, ih]
    · by_cases h2 : t ∈ s.peers
      · simp [h1, h2, ih]
      · simp [h1, h2, ih]

/-- In a duplicate-free list, filtering for one of its members yields exactly
one element. -/
theorem filter_eq_length_one :
    ∀ (l : List String) (a : String), l.Nodup → a ∈ l →
    (l.filter (fun x => decide (x = a))).length = 1 := by
  intro l
  induction l with
  | nil => intro a _ ha; cases ha
  | cons b rest ih =>
    intro a hn ha
    have hnd := List.nodup_cons.mp hn
    rcases List.mem_cons.mp ha with rfl | hmem
    · have : rest.filter (fun x => decide (x = a)) = [] := by
        apply List.filter_eq_nil_iff.mpr
        intro x hx
        simp only [decide_eq_true_eq]
        intro hxa
        exact hnd.1 (hxa ▸ hx)
      simp [List.filter_cons, this]
    · have hba : b ≠ a := by
        intro hba; exact hnd.1 (hba ▸ hmem)
      simp only [List.filter_cons, decide_eq_true_eq]
      rw [if_neg hba]
      exact ih a hnd.2 hmem

/-- Filtering write results by node id has the same length as filtering the
projected node-id list. -/
theorem length_filter_nodeId (l : List WriteResult) (a : String) :
    (l.filter (fun r => decide (r.nodeId = a))).length =
      ((l.map (fun r => r.nodeId)).filter (fun x => decide (x = a))).length := by
  induction l with
  | nil => rfl
  | cons b rest ih =>
    by_cases h : b.nodeId = a <;> simp [h, ih]

/-- Every fan-out result carries success false and error timeout: the
replicate_data receiver never invokes the acknowledgment, so only the
emitter's timeout can resolve the per-target promise. -/
theorem replicateToPeers_error (s : NodeState) (k : String) (v : JSValue)
    (md : Metadata) :
    ∀ (targets : List String), ∀ r ∈ replicateToPeers s k v md targets,
      r.success = false ∧ r.error = some "timeout" := by
  intro targets
  induction targets with
  | nil =>
    intro r hr
    simp [replicateToPeers] at hr
  | cons t rest ih =>
    intro r hr
    unfold replicateToPeers at hr
    rw [List.filterMap_cons] at hr
    by_cases h1 : t = s.nodeId
    · rw [if_pos h1] at hr
      exact ih r hr
    · rw [if_neg h1] at hr
      by_cases h2 : t ∈ s.peers
      · rw [if_pos h2] at hr
        rcases List.mem_cons.mp hr with h' | h'
        · rw [h']; exact ⟨rfl, rfl⟩
        · exact ih r h'
      · rw [if_neg h2] at hr
        exact ih r hr

/-! ## Claim theorems -/

/-- C1: the claim says a peer declared failed is removed from the
consistent-hashing ring at detection, so later PUTs by the detecting node no
longer list it.  The code contradicts this: the failure-detection tick can
only reach the node state (it deletes the peer from the peer table and the
heartbeat map), the ring is never touched by any failure path, and a later
PUT still lists the failed peer among its replicas.  Concretely: node-b's
last heartbeat was at 0, the check runs at 20000 (silence 20 s, threshold
10 s), node-b is declared failed and dropped from the peer table, yet a PUT
issued afterwards by node-a still returns node-b in replicaNodes. -/
theorem C1_failed_node_not_removed_from_ring :
    (∀ (cs : ClusterState) (now : Nat), (clusterCheckFailures cs now).ch = cs.ch) ∧
    (checkForFailedNodes demoNode 20000).peers = [] ∧
    (checkForFailedNodes demoNode 20000).lastHeartbeat = [] ∧
    "node-b" ∈ (clusterPut demoHash (clusterCheckFailures demoCluster 20000)
      30000 30000 "k" (.blob "v")).1.replicaNodes := by
  exact ⟨fun cs now => rfl, by decide, by decide, by decide⟩

/-- C2: the claim says a successful PUT with S acknowledged writes leaves S
replicas holding a record whose metadata timestamp equals the timestamp the
coordinator placed in the PUT's metadata.  The code contradicts this:
storeData re-reads the clock and stamps the record with the store-time clock
value, discarding the coordinator's metadata timestamp.  Concretely: the PUT
builds its metadata at clock 1000 and the local store runs at clock 1001; the
PUT succeeds (S = 1 ≥ Q = 1 with replication factor 1), but the acknowledged
replica holds timestamp 1001, not the PUT's 1000. -/
theorem C2_acknowledged_replica_lacks_put_timestamp :
    (clusterPut demoHash1 demoCluster1 1000 1001 "k" (.blob "v")).1.success = true ∧
    (clusterPut demoHash1 demoCluster1 1000 1001 "k" (.blob "v")).1.successfulWrites = 1 ∧
    (clusterPut demoHash1 demoCluster1 1000 1001 "k" (.blob "v")).1.quorumSize = 1 ∧
    (clusterPut demoHash1 demoCluster1 1000 1001 "k" (.blob "v")).1.replicaNodes = ["node-a"] ∧
    mapGet? (clusterPut demoHash1 demoCluster1 1000 1001 "k" (.blob "v")).2.localNode.metadata "k" =
      some ⟨1, 1001, "node-a"⟩ ∧
    (1001 : Nat) ≠ 1000 := by
  decide

/-- C3: the claim states the local-store last-writer-wins contract: apply on
strictly greater incoming timestamp, no-op otherwise, and get returns the
record with the maximum timestamp among the applied puts.  The code breaks
the contract because storeData overwrites the stored timestamp with the local
arrival clock.  First scenario: a put with coordinator timestamp 500 arrives
at local clock 100, then a put with OLDER coordinator timestamp 200 arrives
at clock 101; since 200 is greater than the re-stamped 100, the older write
overwrites, and get returns v2 instead of the maximum-timestamp record v1.
Second scenario: a put with timestamp 5 arrives at clock 100, then a strictly
NEWER put with timestamp 50 arrives; since 50 is not greater than the
re-stamped 100 it is skipped, so the newer write is lost. -/
theorem C3_latest_timestamp_does_not_win :
    (let s1 := handleReplication (NodeState.mk0 "node-n") 100 "k" (.blob "v1") ⟨1, 500, "c1"⟩
     let s2 := handleReplication s1 101 "k" (.blob "v2") ⟨1, 200, "c2"⟩
     getData s2 "k" = some (.blob "v2", ⟨1, 101, "node-n"⟩) ∧ (200 : Nat) < 500) ∧
    (let t1 := handleReplication (NodeState.mk0 "node-n") 100 "k" (.blob "w1") ⟨1, 5, "c1"⟩
     let t2 := handleReplication t1 101 "k" (.blob "w2") ⟨1, 50, "c2"⟩
     t2 = t1 ∧ (5 : Nat) < 50) := by
  decide

/-- C5 counterexample: the claim says a timestamp tie among collected GET
results is broken by lexicographic order of the origin node id.  The code's
reduce keeps the earlier element on a tie: with results [node-b, node-a] both
at timestamp 5, it returns node-b's record although node-a is
lexicographically smaller. -/
theorem C5_tie_not_broken_by_origin :
    selectLatest [c5b, c5a] = some c5b ∧
    c5a.metadata.timestamp = c5b.metadata.timestamp ∧
    c5a.nodeId.data < c5b.nodeId.data ∧
    c5a.value ≠ c5b.value := by
  decide

/-- C7 amended: when a virtual-node position being inserted by addNode
collides with a position already in the ring map, the INSERTING node wins:
Map.set replaces the stored node id (deterministically), so after addNode
every one of the node's virtual positions maps to the new node id. -/
theorem C7_colliding_insert_overwrites (hashFn : String → Nat)
    (ch : ConsistentHashing) (nodeId : String) (info : JSValue) (i : Nat)
    (h : i < ch.virtualNodes) :
    mapGet? (addNode hashFn ch nodeId info).ring (hashFn (virtualKey nodeId i)) =
      some nodeId := by
  show mapGet? ((List.range ch.virtualNodes).foldl
      (fun r j => mapSet r (hashFn (virtualKey nodeId j)) nodeId) ch.ring)
      (hashFn (virtualKey nodeId i)) = some nodeId
  rw [← List.foldl_map (fun j => hashFn (virtualKey nodeId j))
      (fun r q => mapSet r q nodeId)]
  apply foldIns_lookup
  left
  exact List.mem_map_of_mem _ (List.mem_range.mpr h)

/-- C7 witness: concrete instantiation of the amended collision behaviour. -/
theorem C7_colliding_insert_overwrites_witness :
    0 < (ConsistentHashing.mk0 3 1).virtualNodes ∧
    mapGet? (addNode demoHash (.mk0 3 1) "node-a" (.blob "a")).ring
      (demoHash (virtualKey "node-a" 0)) = some "node-a" :=
  ⟨by decide,
   C7_colliding_insert_overwrites demoHash (.mk0 3 1) "node-a" (.blob "a") 0 (by decide)⟩

/-- C7 counterexample: the claim says the node id already stored at the
colliding position wins and the insertion does not replace the entry.  With
node-a already at position 5, adding node-b whose virtual position is also 5
replaces the entry: position 5 now maps to node-b. -/
theorem C7_existing_entry_replaced :
    mapGet? c7Ring.ring 5 = some "node-a" ∧
    collideHash (virtualKey "node-b" 0) = 5 ∧
    mapGet? (addNode collideHash c7Ring "node-b" (.blob "b")).ring 5 = some "node-b" ∧
    ("node-b" : String) ≠ "node-a" := by
  decide

/-- C8 amended: for every PUT, each replica target other than the coordinator
that HAS a live peer link receives exactly one per-target outcome, and every
produced outcome is success or timeout; a target with no live peer link is
silently omitted from the per-replica results (not reported as
not_connected).  The node-id projection of the results is exactly the list of
connected non-coordinator targets in order. -/
theorem C8_fanout_outcomes (s : NodeState) (k : String) (v : JSValue)
    (md : Metadata) (targets : List String) (hn : targets.Nodup) :
    ((replicateToPeers s k v md targets).map (fun r => r.nodeId) =
      targets.filter (fun nid => decide (nid ≠ s.nodeId ∧ nid ∈ s.peers))) ∧
    (∀ nid ∈ targets, nid ≠ s.nodeId → nid ∈ s.peers →
      ((replicateToPeers s k v md targets).filter
        (fun r => decide (r.nodeId = nid))).length = 1) ∧
    (∀ r ∈ replicateToPeers s k v md targets,
      r.success = true ∨ r.error = some "timeout") := by
  refine ⟨replicateToPeers_map_nodeId s k v md targets, ?_, ?_⟩
  · intro nid hmem hne hpeer
    rw [length_filter_nodeId (replicateToPeers s k v md targets) nid,
        replicateToPeers_map_nodeId s k v md targets]
    apply filter_eq_length_one _ _ (hn.filter _)
    rw [List.mem_filter]
    exact ⟨hmem, by simp [hne, hpeer]⟩
  · intro r hr
    exact Or.inr (replicateToPeers_error s k v md targets r hr).2

/-- C8 witness: concrete fan-out from node-a (connected to node-b only) to
the nodup target list [node-b, node-c]. -/
theorem C8_fanout_outcomes_witness :
    (["node-b", "node-c"] : List String).Nodup ∧
    (((replicateToPeers demoNode "k" (.blob "v") ⟨1, 0, "node-a"⟩
        ["node-b", "node-c"]).map (fun r => r.nodeId) =
      (["node-b", "node-c"] : List String).filter
        (fun nid => decide (nid ≠ demoNode.nodeId ∧ nid ∈ demoNode.peers))) ∧
    (∀ nid ∈ (["node-b", "node-c"] : List String), nid ≠ demoNode.nodeId →
      nid ∈ demoNode.peers →
      ((replicateToPeers demoNode "k" (.blob "v") ⟨1, 0, "node-a"⟩
        ["node-b", "node-c"]).filter
          (fun r => decide (r.nodeId = nid))).length = 1) ∧
    (∀ r ∈ replicateToPeers demoNode "k" (.blob "v") ⟨1, 0, "node-a"⟩
        ["node-b", "node-c"],
      r.success = true ∨ r.error = some "timeout")) :=
  ⟨by decide,
   C8_fanout_outcomes demoNode "k" (.blob "v") ⟨1, 0, "node-a"⟩
     ["node-b", "node-c"] (by decide)⟩

/-- C8 counterexample: the claim says a target in the ring with no live peer
link is reported as not_connected.  In the three-node demo, node-c is in the
ring and among the PUT's replica targets, but node-a has no link to it: the
write results contain NO entry for node-c at all (and, a fortiori, no
not_connected entry). -/
theorem C8_unconnected_target_omitted :
    (clusterPut demoHash3 demoCluster3 0 0 "k" (.blob "v")).1.replicaNodes =
      ["node-b", "node-c", "node-a"] ∧
    (clusterPut demoHash3 demoCluster3 0 0 "k" (.blob "v")).1.writeResults =
      [⟨"node-a", true, none⟩, ⟨"node-b", false, some "timeout"⟩] ∧
    (∀ r ∈ (clusterPut demoHash3 demoCluster3 0 0 "k" (.blob "v")).1.writeResults,
      r.nodeId ≠ "node-c") := by
  decide

/-- C9: a write_request is applied unconditionally: the receiving node
overwrites its stored record (value and re-stamped metadata) and replies
success true with its node id, with no timestamp comparison — even when the
incoming metadata timestamp is older than or equal to the stored one; the
last-writer-wins check exists only on the replicate_data path, which under
the same hypothesis leaves the state unchanged. -/
theorem C9_write_request_unconditional (s : NodeState) (now : Nat) (k : String)
    (v : JSValue) (md em : Metadata)
    (hem : mapGet? s.metadata k = some em) (hold : md.timestamp ≤ em.timestamp) :
    mapGet? (handleWriteRequest s now k v md).1.data k = some v ∧
    mapGet? (handleWriteRequest s now k v md).1.metadata k =
      some ⟨md.version, now, s.nodeId⟩ ∧
    (handleWriteRequest s now k v md).2 = ⟨true, s.nodeId⟩ ∧
    handleReplication s now k v md = s := by
  refine ⟨?_, ?_, rfl, ?_⟩
  · simp [handleWriteRequest, storeData, mapGet?_mapSet_self]
  · simp [handleWriteRequest, storeData, mapGet?_mapSet_self]
  · unfold handleReplication
    rw [hem]
    exact if_neg (by omega)

/-- C9 witness: equal-timestamp write request against wNode (stored
timestamp 100, incoming timestamp 100). -/
theorem C9_write_request_unconditional_witness :
    mapGet? wNode.metadata "k" = some ⟨1, 100, "node-x"⟩ ∧
    (Metadata.mk 1 100 "c9").timestamp ≤ (Metadata.mk 1 100 "node-x").timestamp ∧
    (mapGet? (handleWriteRequest wNode 777 "k" (.blob "v9") ⟨1, 100, "c9"⟩).1.data "k" =
      some (.blob "v9") ∧
     mapGet? (handleWriteRequest wNode 777 "k" (.blob "v9") ⟨1, 100, "c9"⟩).1.metadata "k" =
      some ⟨1, 777, "node-x"⟩ ∧
     (handleWriteRequest wNode 777 "k" (.blob "v9") ⟨1, 100, "c9"⟩).2 = ⟨true, "node-x"⟩ ∧
     handleReplication wNode 777 "k" (.blob "v9") ⟨1, 100, "c9"⟩ = wNode) :=
  ⟨by decide, by decide,
   C9_write_request_unconditional wNode 777 "k" (.blob "v9") ⟨1, 100, "c9"⟩
     ⟨1, 100, "node-x"⟩ (by decide) (by decide)⟩

/-- C10: a key whose stored value is undefined (for example a PUT whose body
carried no value field) is reported absent by the local get even though its
metadata exists; consequently, in the single-node demo, a PUT of undefined
reports success true yet the subsequent coordinator GET returns null, which
the HTTP adapter maps to 404. -/
theorem C10_undefined_value_reported_absent (s : NodeState) (k : String)
    (md : Metadata) (h1 : mapGet? s.data k = some JSValue.undef)
    (_hmd : mapGet? s.metadata k = some md) :
    getData s k = none ∧
    (clusterPut demoHash1 demoCluster1 1000 1000 "k" JSValue.undef).1.success = true ∧
    clusterGet demoHash1 (clusterPut demoHash1 demoCluster1 1000 1000 "k" JSValue.undef).2
      (fun _ => none) "k" = none := by
  refine ⟨?_, by decide, by decide⟩
  unfold getData
  rw [h1]
  simp

/-- C10 witness: the node state produced by the undefined-value PUT itself
stores undefined under key k with live metadata. -/
theorem C10_undefined_value_reported_absent_witness :
    mapGet? (clusterPut demoHash1 demoCluster1 1000 1000 "k" JSValue.undef).2.localNode.data "k" =
      some JSValue.undef ∧
    mapGet? (clusterPut demoHash1 demoCluster1 1000 1000 "k" JSValue.undef).2.localNode.metadata "k" =
      some ⟨1, 1000, "node-a"⟩ ∧
    (getData (clusterPut demoHash1 demoCluster1 1000 1000 "k" JSValue.undef).2.localNode "k" = none ∧
     (clusterPut demoHash1 demoCluster1 1000 1000 "k" JSValue.undef).1.success = true ∧
     clusterGet demoHash1 (clusterPut demoHash1 demoCluster1 1000 1000 "k" JSValue.undef).2
       (fun _ => none) "k" = none) :=
  ⟨by decide, by decide,
   C10_undefined_value_reported_absent _ "k" ⟨1, 1000, "node-a"⟩ (by decide) (by decide)⟩

/-! ## Characterization of the GET conflict-resolution reduce -/


theorem tsMaxFrom_le_init (rs : List ReadResult) :
    ∀ (t : Nat), t ≤ tsMaxFrom t rs := by
  induction rs with
  | nil => intro t; exact Nat.le_refl t
  | cons x xs ih =>
    intro t
    exact Nat.le_trans (Nat.le_max_left t x.metadata.timestamp)
      (ih (max t x.metadata.timestamp))

theorem tsMaxFrom_mem_le (rs : List ReadResult) :
    ∀ (t : Nat), ∀ x ∈ rs, x.metadata.timestamp ≤ tsMaxFrom t rs := by
  induction rs with
  | nil => intro t x hx; cases hx
  | cons y ys ih =>
    intro t x hx
    rcases List.mem_cons.mp hx with h | h
    · rw [h]
      exact Nat.le_trans (Nat.le_max_right t y.metadata.timestamp)
        (tsMaxFrom_le_init ys _)
    · exact ih (max t y.metadata.timestamp) x h

theorem lwwStep_ts (r x : ReadResult) :
    (lwwStep r x).metadata.timestamp =
      max r.metadata.timestamp x.metadata.timestamp := by
  unfold lwwStep
  by_cases h : x.metadata.timestamp > r.metadata.timestamp
  · rw [if_pos h]; omega
  · rw [if_neg h]; omega

/-- The reduce of Cluster.get returns the FIRST element attaining the
maximum timestamp: keeping the current element only on a strictly greater
timestamp makes the earlier element survive every tie. -/
theorem foldl_lww_eq_find (rs : List ReadResult) : ∀ (r : ReadResult),
    (r :: rs).find?
      (fun y => decide (y.metadata.timestamp = tsMaxFrom r.metadata.timestamp rs)) =
      some (rs.foldl lwwStep r) := by
  induction rs with
  | nil =>
    intro r
    simp [tsMaxFrom]
  | cons x xs ih =>
    intro r
    have hts : (lwwStep r x).metadata.timestamp =
        max r.metadata.timestamp x.metadata.timestamp := lwwStep_ts r x
    have hM : tsMaxFrom r.metadata.timestamp (x :: xs) =
        tsMaxFrom (lwwStep r x).metadata.timestamp xs := by
      rw [hts]; rfl
    rw [List.foldl_cons, hM]
    have hle : (lwwStep r x).metadata.timestamp ≤
        tsMaxFrom (lwwStep r x).metadata.timestamp xs := tsMaxFrom_le_init xs _
    by_cases hr : r.metadata.timestamp = tsMaxFrom (lwwStep r x).metadata.timestamp xs
    · have hxr : ¬ (x.metadata.timestamp > r.metadata.timestamp) := by
        intro hgt
        have h1 : (lwwStep r x).metadata.timestamp = x.metadata.timestamp := by
          unfold lwwStep; rw [if_pos hgt]
        omega
      have hr' : lwwStep r x = r := by unfold lwwStep; rw [if_neg hxr]
      rw [hr'] at hr ⊢
      have ihr := ih r
      rw [List.find?_cons_of_pos _ (by simp only [decide_eq_true_eq]; exact hr)] at ihr
      rw [List.find?_cons_of_pos _ (by simp only [decide_eq_true_eq]; exact hr)]
      exact ihr
    · have hrle : r.metadata.timestamp ≤
          tsMaxFrom (lwwStep r x).metadata.timestamp xs := by
        have h1 : r.metadata.timestamp ≤ (lwwStep r x).metadata.timestamp := by
          rw [hts]; exact Nat.le_max_left _ _
        omega
      rw [List.find?_cons_of_neg _ (by simp only [decide_eq_true_eq]; exact hr)]
      by_cases hx : x.metadata.timestamp = tsMaxFrom (lwwStep r x).metadata.timestamp xs
      · have hgt : x.metadata.timestamp > r.metadata.timestamp := by omega
        have hr' : lwwStep r x = x := by unfold lwwStep; rw [if_pos hgt]
        rw [hr'] at hx ⊢
        have ihx := ih x
        rw [List.find?_cons_of_pos _ (by simp only [decide_eq_true_eq]; exact hx)] at ihx
        rw [List.find?_cons_of_pos _ (by simp only [decide_eq_true_eq]; exact hx)]
        exact ihx
      · have hne : (lwwStep r x).metadata.timestamp ≠
            tsMaxFrom (lwwStep r x).metadata.timestamp xs := by
          have h2 := hts
          omega
        have ihr := ih (lwwStep r x)
        rw [List.find?_cons_of_neg _ (by simp only [decide_eq_true_eq]; exact hne)] at ihr
        rw [List.find?_cons_of_neg _ (by simp only [decide_eq_true_eq]; exact hx)]
        exact ihr

/-- C5 amended: for a non-empty collected result list, the coordinator
returns the record with the largest metadata timestamp; when several results
share the largest timestamp, the one occurring EARLIEST in the collected
order (local result first, then peers in replica-list order) is returned —
origin node ids play no role in the tie-break. -/
theorem C5_latest_timestamp_first_occurrence (results : List ReadResult)
    (h : results ≠ []) :
    ∃ r, selectLatest results = some r ∧
      (∀ x ∈ results, x.metadata.timestamp ≤ r.metadata.timestamp) ∧
      results.find?
        (fun y => decide (y.metadata.timestamp = r.metadata.timestamp)) = some r := by
  match results, h with
  | r0 :: rs, _ =>
    refine ⟨rs.foldl lwwStep r0, rfl, ?_, ?_⟩
    · have hM : (rs.foldl lwwStep r0).metadata.timestamp =
          tsMaxFrom r0.metadata.timestamp rs := by
        simpa using List.find?_some (foldl_lww_eq_find rs r0)
      intro x hx
      rw [hM]
      rcases List.mem_cons.mp hx with h' | h'
      · rw [h']; exact tsMaxFrom_le_init rs _
      · exact tsMaxFrom_mem_le rs _ x h'
    · have hM : (rs.foldl lwwStep r0).metadata.timestamp =
          tsMaxFrom r0.metadata.timestamp rs := by
        simpa using List.find?_some (foldl_lww_eq_find rs r0)
      rw [hM]
      exact foldl_lww_eq_find rs r0

/-- C5 witness: the amended selection rule on the concrete tied result list. -/
theorem C5_latest_timestamp_first_occurrence_witness :
    ([c5b, c5a] : List ReadResult) ≠ [] ∧
    (∃ r, selectLatest [c5b, c5a] = some r ∧
      (∀ x ∈ ([c5b, c5a] : List ReadResult),
        x.metadata.timestamp ≤ r.metadata.timestamp) ∧
      ([c5b, c5a] : List ReadResult).find?
        (fun y => decide (y.metadata.timestamp = r.metadata.timestamp)) = some r) :=
  ⟨by decide, C5_latest_timestamp_first_occurrence [c5b, c5a] (by decide)⟩

/-! ## Ring add/remove round-trip lemmas -/

theorem mapGet?_eq_none {α β : Type} [DecidableEq α] :
    ∀ (m : List (α × β)) (k : α), mapGet? m k = none ↔ ∀ e ∈ m, e.1 ≠ k := by
  intro m
  induction m with
  | nil => intro k; simp [mapGet?]
  | cons e rest ih =>
    intro k
    obtain ⟨a, b⟩ := e
    by_cases ha : a = k
    · simp [mapGet?, ha]
    · simp [mapGet?, ha, ih k]

theorem mapSet_fresh {α β : Type} [DecidableEq α] :
    ∀ (m : List (α × β)) (k : α) (v : β), mapGet? m k = none →
    mapSet m k v = m ++ [(k, v)] := by
  intro m
  induction m with
  | nil => intro k v _; rfl
  | cons e rest ih =>
    intro k v h
    obtain ⟨a, b⟩ := e
    unfold mapGet? at h
    by_cases ha : a = k
    · rw [if_pos ha] at h; cases h
    · rw [if_neg ha] at h
      unfold mapSet
      rw [if_neg ha]
      simp [ih k v h]

theorem foldl_mapDelete_eq_filter {α β : Type} [DecidableEq α] :
    ∀ (ps : List α) (m : List (α × β)),
    ps.foldl (fun r q => mapDelete r q) m =
      m.filter (fun e => decide (e.1 ∉ ps)) := by
  intro ps
  induction ps with
  | nil =>
    intro m
    simp
  | cons q rest ih =>
    intro m
    simp only [List.foldl_cons]
    rw [ih (mapDelete m q)]
    unfold mapDelete
    rw [List.filter_filter]
    apply List.filter_congr
    intro e _
    by_cases h1 : e.1 = q <;> by_cases h2 : e.1 ∈ rest <;> simp [h1, h2]

theorem mapSet_filter_out {α β : Type} [DecidableEq α] (qs : List α) (p : α)
    (v : β) (hp : p ∈ qs) : ∀ (r : List (α × β)),
    (mapSet r p v).filter (fun e => decide (e.1 ∉ qs)) =
      r.filter (fun e => decide (e.1 ∉ qs)) := by
  intro r
  induction r with
  | nil => simp [mapSet, hp]
  | cons e rest ih =>
    obtain ⟨a, b⟩ := e
    unfold mapSet
    by_cases ha : a = p
    · rw [if_pos ha]
      simp [List.filter_cons, ha, hp]
    · rw [if_neg ha]
      simp only [List.filter_cons]
      rw [ih]

theorem foldl_mapSet_filter_out {α β : Type} [DecidableEq α] (v0 : β) :
    ∀ (ps qs : List α) (m : List (α × β)), (∀ p ∈ ps, p ∈ qs) →
    (ps.foldl (fun r q => mapSet r q v0) m).filter (fun e => decide (e.1 ∉ qs)) =
      m.filter (fun e => decide (e.1 ∉ qs)) := by
  intro ps
  induction ps with
  | nil => intro qs m _; rfl
  | cons p rest ih =>
    intro qs m hsub
    simp only [List.foldl_cons]
    rw [ih qs (mapSet m p v0) (fun y hy => hsub y (List.mem_cons_of_mem p hy))]
    exact mapSet_filter_out qs p v0 (hsub p (List.mem_cons_self p rest)) m

/-- C6 amended: add_node(x) followed by remove_node(x) restores the ring
byte-identically — ring map (in insertion order), sorted position list, and
node table — PROVIDED x is not already in the node table and none of x's
virtual positions collides with a position already present in the ring.  (On
a collision the claim fails: see the counterexample theorem.) -/
theorem C6_add_remove_roundtrip (hashFn : String → Nat) (ch : ConsistentHashing)
    (x : String) (info : JSValue)
    (hx : mapGet? ch.nodes x = none)
    (hfresh : ∀ i ∈ List.range ch.virtualNodes,
      mapGet? ch.ring (hashFn (virtualKey x i)) = none)
    (hsorted : ch.sortedHashes = sortKeys ch.ring) :
    removeNode hashFn (addNode hashFn ch x info) x = ch := by
  obtain ⟨rf, V, ring0, sorted0, nodes0⟩ := ch
  simp only at hx hfresh hsorted
  have hguard : mapGet? (addNode hashFn ⟨rf, V, ring0, sorted0, nodes0⟩ x info).nodes x =
      some info := mapGet?_mapSet_self nodes0 x info
  have haddring : (addNode hashFn ⟨rf, V, ring0, sorted0, nodes0⟩ x info).ring =
      ((List.range V).map (fun i => hashFn (virtualKey x i))).foldl
        (fun r q => mapSet r q x) ring0 := by
    rw [List.foldl_map]
    rfl
  have haddnodes : (addNode hashFn ⟨rf, V, ring0, sorted0, nodes0⟩ x info).nodes =
      nodes0 ++ [(x, info)] := mapSet_fresh nodes0 x info hx
  have hfresh' : ∀ e ∈ ring0,
      e.1 ∉ (List.range V).map (fun i => hashFn (virtualKey x i)) := by
    intro e he hmem
    obtain ⟨i, hi, hpe⟩ := List.mem_map.mp hmem
    exact (mapGet?_eq_none ring0 (hashFn (virtualKey x i))).mp (hfresh i hi) e he hpe.symm
  have hringRT :
      (List.range V).foldl
        (fun r i => mapDelete r (hashFn (virtualKey x i)))
        (addNode hashFn ⟨rf, V, ring0, sorted0, nodes0⟩ x info).ring = ring0 := by
    rw [← List.foldl_map (fun i => hashFn (virtualKey x i)) (fun r q => mapDelete r q)]
    rw [haddring, foldl_mapDelete_eq_filter,
        foldl_mapSet_filter_out x _ _ _ (fun p hp => hp)]
    apply List.filter_eq_self.mpr
    intro e he
    simp only [decide_eq_true_eq]
    exact hfresh' e he
  have hnodesRT : mapDelete (addNode hashFn ⟨rf, V, ring0, sorted0, nodes0⟩ x info).nodes x =
      nodes0 := by
    rw [haddnodes]
    unfold mapDelete
    rw [List.filter_append]
    have h1 : nodes0.filter (fun e => decide (e.1 ≠ x)) = nodes0 := by
      apply List.filter_eq_self.mpr
      intro e he
      simp only [ne_eq, decide_eq_true_eq]
      exact (mapGet?_eq_none nodes0 x).mp hx e he
    have h2 : ([(x, info)] : List (String × JSValue)).filter
        (fun e => decide (e.1 ≠ x)) = [] := by simp
    rw [h1, h2, List.append_nil]
  unfold removeNode
  rw [hguard]
  simp only [Option.isNone_some, Bool.false_eq_true, if_false]
  have hV : (addNode hashFn ⟨rf, V, ring0, sorted0, nodes0⟩ x info).virtualNodes = V := rfl
  rw [hV, hringRT, hnodesRT, ← hsorted]
  rfl

/-- C6 witness: adding and removing the fresh node node-c (virtual position
0, absent from the demo ring) restores the two-node demo ring exactly. -/
theorem C6_add_remove_roundtrip_witness :
    mapGet? demoCH.nodes "node-c" = none ∧
    (∀ i ∈ List.range demoCH.virtualNodes,
      mapGet? demoCH.ring (demoHash (virtualKey "node-c" i)) = none) ∧
    demoCH.sortedHashes = sortKeys demoCH.ring ∧
    removeNode demoHash (addNode demoHash demoCH "node-c" (.blob "c")) "node-c" = demoCH :=
  ⟨by decide, by decide, by decide,
   C6_add_remove_roundtrip demoHash demoCH "node-c" (.blob "c")
     (by decide) (by decide) (by decide)⟩

/-- C6 counterexample: the claim asserts byte-identity of the round-trip even
when one of x's virtual positions collides with a position of another node.
With node-a at position 5 and node-b's single virtual position also 5,
addNode overwrites node-a's ring entry and removeNode then deletes position 5
outright: the ring ends up empty instead of regaining node-a's entry. -/
theorem C6_roundtrip_not_identity_on_collision :
    c7Ring.ring = [(5, "node-a")] ∧
    collideHash (virtualKey "node-b" 0) = 5 ∧
    mapGet? c7Ring.nodes "node-b" = none ∧
    (removeNode collideHash (addNode collideHash c7Ring "node-b" (.blob "b"))
      "node-b").ring = [] ∧
    removeNode collideHash (addNode collideHash c7Ring "node-b" (.blob "b"))
      "node-b" ≠ c7Ring := by
  decide

/-! ## Replica-walk lemmas: the loop as a structural walk -/

theorem insDistinct_of_mem {acc : List String} {x : String} (h : x ∈ acc) :
    insDistinct acc x = acc := by
  unfold insDistinct
  rw [if_pos h]

theorem mem_insDistinct_self (acc : List String) (x : String) :
    x ∈ insDistinct acc x := by
  unfold insDistinct
  by_cases h : x ∈ acc
  · rwa [if_pos h]
  · rw [if_neg h]
    exact List.mem_append_right acc (List.mem_singleton.mpr rfl)

theorem mem_insDistinct_of_mem {acc : List String} {y : String} (x : String)
    (h : y ∈ acc) : y ∈ insDistinct acc x := by
  unfold insDistinct
  by_cases hx : x ∈ acc
  · rwa [if_pos hx]
  · rw [if_neg hx]
    exact List.mem_append_left _ h

theorem insDistinct_nodup {acc : List String} (x : String) (h : acc.Nodup) :
    (insDistinct acc x).Nodup := by
  unfold insDistinct
  by_cases hx : x ∈ acc
  · rwa [if_pos hx]
  · rw [if_neg hx]
    rw [List.nodup_append]
    exact ⟨h, List.nodup_singleton x, by
      intro a ha hax
      rw [List.mem_singleton.mp hax] at ha
      exact hx ha⟩

theorem insDistinct_length_le (acc : List String) (x : String) :
    (insDistinct acc x).length ≤ acc.length + 1 := by
  unfold insDistinct
  by_cases hx : x ∈ acc
  · rw [if_pos hx]; omega
  · rw [if_neg hx]; simp

theorem insDistinct_length_ge (acc : List String) (x : String) :
    acc.length ≤ (insDistinct acc x).length := by
  unfold insDistinct
  by_cases hx : x ∈ acc
  · rw [if_pos hx]
  · rw [if_neg hx]; simp

/-- The fuel-indexed loop equals the structural walk over the cyclic position
sequence it visits. -/
theorem replicaLoop_eq_walk (ring : List (Nat × String)) (sorted : List Nat)
    (rf n : Nat) : ∀ (fuel idx : Nat) (acc : List String),
    replicaLoop ring sorted rf n fuel idx acc =
      walkPositions ring rf n (cycPositions sorted idx fuel) acc := by
  intro fuel
  induction fuel with
  | zero => intro idx acc; rfl
  | succ fuel ih =>
    intro idx acc
    show replicaLoop ring sorted rf n (fuel + 1) idx acc = _
    unfold replicaLoop cycPositions walkPositions
    by_cases h : acc.length < rf ∧ acc.length < n
    · rw [if_pos h, if_pos h]
      rw [ih]
      rfl
    · rw [if_neg h, if_neg h]

theorem accFold_take_self (ring : List (Nat × String)) :
    ∀ (ps : List Nat) (acc : List String),
    (accFold ring acc ps).take acc.length = acc := by
  intro ps
  induction ps with
  | nil => intro acc; exact List.take_length acc
  | cons p rest ih =>
    intro acc
    show (accFold ring (insDistinct acc (nodeAt ring p)) rest).take acc.length = acc
    by_cases hx : nodeAt ring p ∈ acc
    · rw [insDistinct_of_mem hx]
      exact ih acc
    · have hins : insDistinct acc (nodeAt ring p) = acc ++ [nodeAt ring p] := by
        unfold insDistinct; rw [if_neg hx]
      have h1 := ih (insDistinct acc (nodeAt ring p))
      have hlen : (insDistinct acc (nodeAt ring p)).length = acc.length + 1 := by
        rw [hins]; simp
      rw [hlen] at h1
      have h2 : (accFold ring (insDistinct acc (nodeAt ring p)) rest).take acc.length =
          ((accFold ring (insDistinct acc (nodeAt ring p)) rest).take (acc.length + 1)).take
            acc.length := by
        rw [List.take_take]
        congr 1
        omega
      rw [h2, h1, hins, List.take_left]

theorem accFold_nodup (ring : List (Nat × String)) :
    ∀ (ps : List Nat) (acc : List String), acc.Nodup → (accFold ring acc ps).Nodup := by
  intro ps
  induction ps with
  | nil => intro acc h; exact h
  | cons p rest ih =>
    intro acc h
    exact ih (insDistinct acc (nodeAt ring p)) (insDistinct_nodup _ h)

theorem mem_accFold_of_mem_acc (ring : List (Nat × String)) :
    ∀ (ps : List Nat) (acc : List String) (y : String), y ∈ acc →
    y ∈ accFold ring acc ps := by
  intro ps
  induction ps with
  | nil => intro acc y h; exact h
  | cons p rest ih =>
    intro acc y h
    exact ih (insDistinct acc (nodeAt ring p)) y (mem_insDistinct_of_mem _ h)

theorem mem_accFold_of_mem_ps (ring : List (Nat × String)) :
    ∀ (ps : List Nat) (acc : List String) (p : Nat), p ∈ ps →
    nodeAt ring p ∈ accFold ring acc ps := by
  intro ps
  induction ps with
  | nil => intro acc p h; cases h
  | cons q rest ih =>
    intro acc p h
    rcases List.mem_cons.mp h with h' | h'
    · rw [h']
      exact mem_accFold_of_mem_acc ring rest _ _ (mem_insDistinct_self acc _)
    · exact ih _ p h'

theorem accFold_eq_firstDedup (ring : List (Nat × String)) (ps : List Nat) :
    accFold ring [] ps = firstDedup (ps.map (nodeAt ring)) := by
  unfold accFold firstDedup
  rw [List.foldl_map]

/-- The walk equals collect-all followed by truncation at min(R, N). -/
theorem walk_eq_take (ring : List (Nat × String)) (rf n : Nat) :
    ∀ (ps : List Nat) (acc : List String),
    walkPositions ring rf n ps acc =
      (accFold ring acc ps).take (max acc.length (min rf n)) := by
  intro ps
  induction ps with
  | nil =>
    intro acc
    show acc = acc.take (max acc.length (min rf n))
    rw [List.take_of_length_le (Nat.le_max_left _ _)]
  | cons p rest ih =>
    intro acc
    show (if acc.length < rf ∧ acc.length < n then
        walkPositions ring rf n rest (insDistinct acc (nodeAt ring p)) else acc) = _
    by_cases h : acc.length < rf ∧ acc.length < n
    · rw [if_pos h]
      rw [ih (insDistinct acc (nodeAt ring p))]
      have hm : acc.length < min rf n := Nat.lt_min.mpr h
      have h1 : max (insDistinct acc (nodeAt ring p)).length (min rf n) = min rf n := by
        have := insDistinct_length_le acc (nodeAt ring p)
        omega
      have h2 : max acc.length (min rf n) = min rf n := by omega
      rw [h1, h2]
      rfl
    · rw [if_neg h]
      have hm : ¬ acc.length < min rf n := by
        rw [Nat.lt_min]; exact h
      have h2 : max acc.length (min rf n) = acc.length := by omega
      rw [h2]
      show acc = (accFold ring (insDistinct acc (nodeAt ring p)) rest).take acc.length
      have h3 := accFold_take_self ring rest (insDistinct acc (nodeAt ring p))
      have h4 : (accFold ring (insDistinct acc (nodeAt ring p)) rest).take acc.length =
          ((accFold ring (insDistinct acc (nodeAt ring p)) rest).take
            (insDistinct acc (nodeAt ring p)).length).take acc.length := by
        rw [List.take_take]
        congr 1
        have := insDistinct_length_ge acc (nodeAt ring p)
        omega
      rw [h4, h3]
      unfold insDistinct
      by_cases hx : nodeAt ring p ∈ acc
      · rw [if_pos hx, List.take_length]
      · rw [if_neg hx, List.take_left]

theorem cycPositions_length (sorted : List Nat) :
    ∀ (fuel idx : Nat), (cycPositions sorted idx fuel).length = fuel := by
  intro fuel
  induction fuel with
  | zero => intro idx; rfl
  | succ fuel ih =>
    intro idx
    show (sorted.getD idx 0 :: cycPositions sorted ((idx + 1) % sorted.length) fuel).length = _
    rw [List.length_cons, ih]

theorem cycPositions_getD (sorted : List Nat) :
    ∀ (fuel idx j : Nat), idx < sorted.length → j < fuel →
    (cycPositions sorted idx fuel).getD j 0 =
      sorted.getD ((idx + j) % sorted.length) 0 := by
  intro fuel
  induction fuel with
  | zero => intro idx j _ hj; exact absurd hj (Nat.not_lt_zero j)
  | succ fuel ih =>
    intro idx j hidx hj
    match j with
    | 0 =>
      show (sorted.getD idx 0 :: cycPositions sorted ((idx + 1) % sorted.length) fuel).getD 0 0 = _
      rw [List.getD_cons_zero, Nat.add_zero, Nat.mod_eq_of_lt hidx]
    | j + 1 =>
      show (sorted.getD idx 0 :: cycPositions sorted ((idx + 1) % sorted.length) fuel).getD (j + 1) 0 = _
      rw [List.getD_cons_succ]
      have hlen0 : 0 < sorted.length := by omega
      rw [ih ((idx + 1) % sorted.length) j (Nat.mod_lt _ hlen0) (by omega)]
      congr 1
      rw [Nat.mod_add_mod]
      congr 1
      omega

theorem mem_cycPositions (sorted : List Nat) (idx : Nat)
    (hidx : idx < sorted.length) :
    ∀ p ∈ sorted, p ∈ cycPositions sorted idx (sorted.length + 1) := by
  intro p hp
  obtain ⟨k, hk, hkp⟩ := List.mem_iff_getElem.mp hp
  have hlen0 : 0 < sorted.length := by omega
  have hex : ∃ j, j < sorted.length + 1 ∧ (idx + j) % sorted.length = k := by
    refine ⟨(sorted.length + k - idx) % sorted.length, ?_, ?_⟩
    · have := Nat.mod_lt (sorted.length + k - idx) hlen0
      omega
    · rw [Nat.add_mod_mod]
      have heq : idx + (sorted.length + k - idx) = k + sorted.length := by omega
      rw [heq, Nat.add_mod_right]
      exact Nat.mod_eq_of_lt hk
  obtain ⟨j, hj, hmod⟩ := hex
  have hcl : (cycPositions sorted idx (sorted.length + 1)).getD j 0 = p := by
    rw [cycPositions_getD sorted (sorted.length + 1) idx j hidx hj, hmod]
    rw [List.getD_eq_getElem sorted 0 hk]
    exact hkp
  have hjlen : j < (cycPositions sorted idx (sorted.length + 1)).length := by
    rw [cycPositions_length]
    omega
  rw [← hcl, List.getD_eq_getElem _ 0 hjlen]
  exact List.getElem_mem hjlen

theorem cycPositions_succ_last (sorted : List Nat) :
    ∀ (fuel idx : Nat), idx < sorted.length →
    cycPositions sorted idx (fuel + 1) =
      cycPositions sorted idx fuel ++
        [sorted.getD ((idx + fuel) % sorted.length) 0] := by
  intro fuel
  induction fuel with
  | zero =>
    intro idx hidx
    show [sorted.getD idx 0] = [] ++ [sorted.getD ((idx + 0) % sorted.length) 0]
    rw [Nat.add_zero, Nat.mod_eq_of_lt hidx]
    rfl
  | succ fuel ih =>
    intro idx hidx
    have hlen0 : 0 < sorted.length := by omega
    show sorted.getD idx 0 :: cycPositions sorted ((idx + 1) % sorted.length) (fuel + 1) = _
    rw [ih ((idx + 1) % sorted.length) (Nat.mod_lt _ hlen0)]
    have harith : ((idx + 1) % sorted.length + fuel) % sorted.length =
        (idx + (fuel + 1)) % sorted.length := by
      rw [Nat.mod_add_mod]
      congr 1
      omega
    rw [harith]
    rfl

/-- One full cycle of visitation starting at idx is exactly the clockwise
rotation of the sorted position list. -/
theorem cycPositions_eq_clockwise (sorted : List Nat) (idx : Nat)
    (hidx : idx < sorted.length) :
    cycPositions sorted idx sorted.length = clockwiseFrom sorted idx := by
  apply List.ext_getElem
  · rw [cycPositions_length]
    unfold clockwiseFrom
    simp
    omega
  · intro j h1 h2
    have hj : j < sorted.length := by rwa [cycPositions_length] at h1
    rw [← List.getD_eq_getElem _ 0 h1,
        cycPositions_getD sorted sorted.length idx j hidx hj]
    unfold clockwiseFrom
    by_cases hcase : j < sorted.length - idx
    · have hm : (idx + j) % sorted.length = idx + j := Nat.mod_eq_of_lt (by omega)
      rw [hm, List.getD_eq_getElem _ 0 (by omega)]
      rw [List.getElem_append_left (by simp [List.length_drop]; omega)]
      exact (List.getElem_drop sorted).symm
    · have hm : (idx + j) % sorted.length = idx + j - sorted.length := by
        have h3 : idx + j = (idx + j - sorted.length) + sorted.length := by omega
        nth_rewrite 1 [h3]
        rw [Nat.add_mod_right]
        exact Nat.mod_eq_of_lt (by omega : idx + j - sorted.length < sorted.length)
      rw [hm, List.getD_eq_getElem _ 0 (by omega)]
      rw [List.getElem_append_right (by simp [List.length_drop]; omega)]
      rw [List.getElem_take]
      simp only [List.length_drop]
      congr 1
      omega

/-- The index scan returning some j locates the value the value scan finds. -/
theorem scanStartIndex_some (position : Nat) :
    ∀ (l : List Nat) (i j : Nat), scanStartIndex position l i = some j →
    i ≤ j ∧ j - i < l.length ∧
      scanFirstGE position l = some (l.getD (j - i) 0) := by
  intro l
  induction l with
  | nil => intro i j h; cases h
  | cons p rest ih =>
    intro i j h
    unfold scanStartIndex at h
    unfold scanFirstGE
    by_cases hp : position ≤ p
    · rw [if_pos hp] at h
      rw [if_pos hp]
      have hij := Option.some.inj h
      subst hij
      refine ⟨Nat.le_refl _, by simp, ?_⟩
      rw [Nat.sub_self, List.getD_cons_zero]
    · rw [if_neg hp] at h
      rw [if_neg hp]
      obtain ⟨h1, h2, h3⟩ := ih (i + 1) j h
      refine ⟨by omega, by simp; omega, ?_⟩
      rw [h3]
      congr 1
      have hji : j - i = (j - (i + 1)) + 1 := by omega
      rw [hji, List.getD_cons_succ]

/-- The index scan fails exactly when the value scan fails. -/
theorem scanStartIndex_none (position : Nat) :
    ∀ (l : List Nat) (i : Nat),
    scanStartIndex position l i = none ↔ scanFirstGE position l = none := by
  intro l
  induction l with
  | nil => intro i; exact Iff.rfl
  | cons p rest ih =>
    intro i
    unfold scanStartIndex scanFirstGE
    by_cases hp : position ≤ p
    · rw [if_pos hp, if_pos hp]
      simp
    · rw [if_neg hp, if_neg hp]
      exact ih (i + 1)

theorem head?_eq_of_take_one {l : List String} {a : String}
    (h : l.take 1 = [a]) : l.head? = some a := by
  cases l with
  | nil => simp at h
  | cons b t =>
    simp at h
    rw [h]
    rfl

/-- Core properties of the replica while-loop on a coherent ring state:
it computes the truncated first-occurrence dedup of the clockwise walk, has
exactly min(R, N) distinct entries, and starts at the primary position. -/
theorem replicaLoop_spec (ring : List (Nat × String)) (sorted : List Nat)
    (rf n : Nat) (nodeIds : List String) (start : Nat)
    (hstart : start < sorted.length)
    (hnodup : nodeIds.Nodup) (hlen : nodeIds.length = n)
    (hsome : ∀ p ∈ sorted, (mapGet? ring p).isSome)
    (hcover : ∀ nid ∈ nodeIds, ∃ p ∈ sorted, mapGet? ring p = some nid)
    (hn : 0 < n) (hrf : 1 ≤ rf) :
    replicaLoop ring sorted rf n (sorted.length + 1) start [] =
      (firstDedup ((clockwiseFrom sorted start).map (nodeAt ring))).take (min rf n) ∧
    (replicaLoop ring sorted rf n (sorted.length + 1) start []).length = min rf n ∧
    (replicaLoop ring sorted rf n (sorted.length + 1) start []).Nodup ∧
    (replicaLoop ring sorted rf n (sorted.length + 1) start []).head? =
      mapGet? ring (sorted.getD start 0) := by
  have hlen0 : 0 < sorted.length := by omega
  have hwalk := replicaLoop_eq_walk ring sorted rf n (sorted.length + 1) start []
  have htake := walk_eq_take ring rf n
    (cycPositions sorted start (sorted.length + 1)) []
  have hmax : max ([] : List String).length (min rf n) = min rf n := by simp
  rw [hmax] at htake
  have hX : replicaLoop ring sorted rf n (sorted.length + 1) start [] =
      (accFold ring [] (cycPositions sorted start (sorted.length + 1))).take
        (min rf n) := by
    rw [hwalk, htake]
  have hsucc := cycPositions_succ_last sorted sorted.length start hstart
  have harg : (start + sorted.length) % sorted.length = start := by
    rw [Nat.add_mod_right]
    exact Nat.mod_eq_of_lt hstart
  rw [harg] at hsucc
  have hheadmem : sorted.getD start 0 ∈ cycPositions sorted start sorted.length := by
    obtain ⟨K, hK⟩ : ∃ K, sorted.length = K + 1 := ⟨sorted.length - 1, by omega⟩
    rw [hK]
    show sorted.getD start 0 ∈
      sorted.getD start 0 :: cycPositions sorted ((start + 1) % sorted.length) K
    exact List.mem_cons_self _ _
  have hSfold : accFold ring [] (cycPositions sorted start (sorted.length + 1)) =
      accFold ring [] (cycPositions sorted start sorted.length) := by
    rw [hsucc]
    unfold accFold
    rw [List.foldl_append]
    show insDistinct
      (accFold ring [] (cycPositions sorted start sorted.length))
      (nodeAt ring (sorted.getD start 0)) = _
    exact insDistinct_of_mem
      (mem_accFold_of_mem_ps ring _ [] _ hheadmem)
  have hclock := cycPositions_eq_clockwise sorted start hstart
  have hspec : (accFold ring [] (cycPositions sorted start (sorted.length + 1))).take
        (min rf n) =
      (firstDedup ((clockwiseFrom sorted start).map (nodeAt ring))).take (min rf n) := by
    rw [hSfold, hclock, accFold_eq_firstDedup]
  refine ⟨hX.trans hspec, ?_, ?_, ?_⟩
  · -- length
    have hsub : ∀ nid ∈ nodeIds,
        nid ∈ accFold ring [] (cycPositions sorted start (sorted.length + 1)) := by
      intro nid hnid
      obtain ⟨p, hpmem, hplook⟩ := hcover nid hnid
      have hpc : p ∈ cycPositions sorted start (sorted.length + 1) :=
        mem_cycPositions sorted start hstart p hpmem
      have hna : nodeAt ring p = nid := by unfold nodeAt; rw [hplook]; rfl
      rw [← hna]
      exact mem_accFold_of_mem_ps ring _ [] p hpc
    have hnle : n ≤
        (accFold ring [] (cycPositions sorted start (sorted.length + 1))).length := by
      rw [← hlen]
      exact (hnodup.subperm hsub).length_le
    rw [hX, List.length_take]
    omega
  · -- nodup
    rw [hX]
    exact List.Nodup.sublist (List.take_sublist _ _)
      (accFold_nodup ring _ [] List.nodup_nil)
  · -- head
    have hm1 : 1 ≤ min rf n := by omega
    have hcons : accFold ring [] (cycPositions sorted start (sorted.length + 1)) =
        accFold ring [nodeAt ring (sorted.getD start 0)]
          (cycPositions sorted ((start + 1) % sorted.length) sorted.length) := by
      show accFold ring []
        (sorted.getD start 0 ::
          cycPositions sorted ((start + 1) % sorted.length) sorted.length) = _
      unfold accFold
      rw [List.foldl_cons]
      have h0 : insDistinct [] (nodeAt ring (sorted.getD start 0)) =
          [nodeAt ring (sorted.getD start 0)] := by
        unfold insDistinct
        rw [if_neg (List.not_mem_nil _)]
        rfl
      show (cycPositions sorted ((start + 1) % sorted.length) sorted.length).foldl
        (fun a p => insDistinct a (nodeAt ring p))
        (insDistinct [] (nodeAt ring (sorted.getD start 0))) = _
      rw [h0]
    have htake1 : (accFold ring [] (cycPositions sorted start (sorted.length + 1))).take 1 =
        [nodeAt ring (sorted.getD start 0)] := by
      rw [hcons]
      have := accFold_take_self ring
        (cycPositions sorted ((start + 1) % sorted.length) sorted.length)
        [nodeAt ring (sorted.getD start 0)]
      simpa using this
    have htakeX : (replicaLoop ring sorted rf n (sorted.length + 1) start []).take 1 =
        [nodeAt ring (sorted.getD start 0)] := by
      rw [hX, List.take_take]
      have hmin1 : min 1 (min rf n) = 1 := by omega
      rw [hmin1, htake1]
    have hsomeStart : (mapGet? ring (sorted.getD start 0)).isSome := by
      apply hsome
      rw [List.getD_eq_getElem sorted 0 hstart]
      exact List.getElem_mem hstart
    have hval : ∃ w, mapGet? ring (sorted.getD start 0) = some w :=
      Option.isSome_iff_exists.mp hsomeStart
    obtain ⟨w, hw⟩ := hval
    rw [head?_eq_of_take_one htakeX, hw]
    unfold nodeAt
    rw [hw]
    rfl

theorem getReplicaNodes_eq (hashFn : String → Nat) (ch : ConsistentHashing)
    (key : String) (h : ch.sortedHashes ≠ []) :
    getReplicaNodes hashFn ch key =
      replicaLoop ch.ring ch.sortedHashes ch.replicationFactor ch.nodes.length
        (ch.sortedHashes.length + 1)
        ((scanStartIndex (hashFn key) ch.sortedHashes 0).getD 0) [] := by
  unfold getReplicaNodes
  cases hs : ch.sortedHashes with
  | nil => exact absurd hs h
  | cons a t => rfl

theorem replicasSpec_eq (hashFn : String → Nat) (ch : ConsistentHashing)
    (key : String) (h : ch.sortedHashes ≠ []) :
    replicasSpec hashFn ch key =
      (firstDedup ((clockwiseFrom ch.sortedHashes
        ((scanStartIndex (hashFn key) ch.sortedHashes 0).getD 0)).map
          (nodeAt ch.ring))).take (min ch.replicationFactor ch.nodes.length) := by
  unfold replicasSpec
  cases hs : ch.sortedHashes with
  | nil => exact absurd hs h
  | cons a t => rfl

theorem getNode_eq_start (hashFn : String → Nat) (ch : ConsistentHashing)
    (key : String) (h : ch.sortedHashes ≠ []) :
    getNode hashFn ch key =
      mapGet? ch.ring (ch.sortedHashes.getD
        ((scanStartIndex (hashFn key) ch.sortedHashes 0).getD 0) 0) := by
  unfold getNode
  cases hs : ch.sortedHashes with
  | nil => exact absurd hs h
  | cons first rest =>
    cases hscan : scanStartIndex (hashFn key) (first :: rest) 0 with
    | some j =>
      obtain ⟨_, hlt, hfind⟩ :=
        scanStartIndex_some (hashFn key) (first :: rest) 0 j hscan
      rw [hfind]
      simp only [Nat.sub_zero] at *
      rfl
    | none =>
      have hnone := (scanStartIndex_none (hashFn key) (first :: rest) 0).mp hscan
      rw [hnone]
      rfl

/-- C4: for any key and any coherent ring state with N ≥ 1 nodes (and
replication factor ≥ 1, as configured), getReplicaNodes returns exactly
min(R, N) pairwise-distinct node ids, equal to the truncated first-occurrence
walk of the clockwise rotation starting at the key's start position (the
spec-side definition replicasSpec), with the primary node — getNode's answer
— first; determinism across calls on identical state is definitional, since
the function reads only the ring state (same term, same value). -/
theorem C4_replica_list_spec (hashFn : String → Nat) (ch : ConsistentHashing)
    (key : String) (hco : RingCoherent ch) (hn : 0 < ch.nodes.length)
    (hrf : 1 ≤ ch.replicationFactor) :
    getReplicaNodes hashFn ch key = replicasSpec hashFn ch key ∧
    (getReplicaNodes hashFn ch key).length =
      min ch.replicationFactor ch.nodes.length ∧
    (getReplicaNodes hashFn ch key).Nodup ∧
    (getReplicaNodes hashFn ch key).head? = getNode hashFn ch key := by
  obtain ⟨hnodup, hsome, hcover⟩ := hco
  have hids_len : (ch.nodes.map Prod.fst).length = ch.nodes.length :=
    List.length_map ch.nodes Prod.fst
  have hne : ch.nodes.map Prod.fst ≠ [] := by
    intro h0
    rw [h0] at hids_len
    simp at hids_len
    omega
  obtain ⟨nid0, hnid0⟩ := List.exists_mem_of_ne_nil _ hne
  obtain ⟨p0, hp0, _⟩ := hcover nid0 hnid0
  have hsne : ch.sortedHashes ≠ [] := List.ne_nil_of_mem hp0
  have hslen0 : 0 < ch.sortedHashes.length := List.length_pos.mpr hsne
  have hstart : (scanStartIndex (hashFn key) ch.sortedHashes 0).getD 0 <
      ch.sortedHashes.length := by
    cases hscan : scanStartIndex (hashFn key) ch.sortedHashes 0 with
    | some j =>
      obtain ⟨_, h2, _⟩ :=
        scanStartIndex_some (hashFn key) ch.sortedHashes 0 j hscan
      simpa using h2
    | none => simpa using hslen0
  have hmain := replicaLoop_spec ch.ring ch.sortedHashes ch.replicationFactor
    ch.nodes.length (ch.nodes.map Prod.fst)
    ((scanStartIndex (hashFn key) ch.sortedHashes 0).getD 0)
    hstart hnodup hids_len hsome hcover hn hrf
  rw [getReplicaNodes_eq hashFn ch key hsne, replicasSpec_eq hashFn ch key hsne,
      getNode_eq_start hashFn ch key hsne]
  exact hmain

/-- C4 witness: the two-node demo ring at key k — replicas [node-b, node-a],
length min(3, 2) = 2, distinct, primary node-b first. -/
theorem C4_replica_list_spec_witness :
    RingCoherent demoCH ∧ 0 < demoCH.nodes.length ∧ 1 ≤ demoCH.replicationFactor ∧
    (getReplicaNodes demoHash demoCH "k" = replicasSpec demoHash demoCH "k" ∧
     (getReplicaNodes demoHash demoCH "k").length =
       min demoCH.replicationFactor demoCH.nodes.length ∧
     (getReplicaNodes demoHash demoCH "k").Nodup ∧
     (getReplicaNodes demoHash demoCH "k").head? = getNode demoHash demoCH "k") :=
  ⟨by decide, by decide, by decide,
   C4_replica_list_spec demoHash demoCH "k" (by decide) (by decide) (by decide)⟩
